import Mathlib

/-!
Shallow embedding of the counterfactual search-and-scoring engine of the
DiCE repository (files `dice_ml/explainer_interfaces/explainer_base.py` and
`dice_ml/explainer_interfaces/dice_genetic.py`).

Machine floats are modelled by exact rationals; `numpy`/`random` draws are
modelled by explicit streams of values supplied as arguments (each carrying
its documented range as a hypothesis where needed); the prediction oracle is
an arbitrary function `List ℚ → ℚ`; unbounded `while` loops are modelled by
fuel-indexed structural recursion, where running out of fuel returns the
state reached so far.
-/

namespace DiCE

/-- Python's `round` to an integer: round half to even (banker's rounding). -/
def rhe (q : ℚ) : ℤ :=
  let f := ⌊q⌋
  let r := q - f
  if r < 1/2 then f
  else if 1/2 < r then f + 1
  else if f % 2 = 0 then f else f + 1

/-- Python's `round(x, p)` for `p` decimal places. -/
def pyRound (q : ℚ) (p : ℕ) : ℚ :=
  (rhe (q * 10 ^ p) : ℚ) / 10 ^ p

/-- `np.sign`. -/
def qsign (x : ℚ) : ℚ :=
  if 0 < x then 1 else if x < 0 then -1 else 0

/-- The validity predicate of `explainer_base.py` line 128: a prediction is
valid iff `(target_cf_class == 0 and pred <= stopping_threshold) or
(target_cf_class == 1 and pred >= stopping_threshold)`. -/
def validCF (tc thr p : ℚ) : Bool :=
  decide ((tc = 0 ∧ p ≤ thr) ∨ (tc = 1 ∧ thr ≤ p))

/-- The strict "still on the valid side" test used by the sparsity searches
(`do_linear_search` line 407-408, `do_binary_search` lines 431/451/470):
`(tc == 0 and pred < thr) or (tc == 1 and pred > thr)`. -/
def stillValidStrict (tc thr p : ℚ) : Prop :=
  (tc = 0 ∧ p < thr) ∨ (tc = 1 ∧ thr < p)

instance (tc thr p : ℚ) : Decidable (stillValidStrict tc thr p) := by
  unfold stillValidStrict; infer_instance

/-- The strict "crossed to the invalid side" test of `do_linear_search`
line 414: `(tc == 0 and pred > thr) or (tc == 1 and pred < thr)`. -/
def crossedStrict (tc thr p : ℚ) : Prop :=
  (tc = 0 ∧ thr < p) ∨ (tc = 1 ∧ p < thr)

instance (tc thr p : ℚ) : Decidable (crossedStrict tc thr p) := by
  unfold crossedStrict; infer_instance

/-- The `while` loop of `do_linear_search` (`explainer_base.py` lines
406-419), fuel-indexed.  State: `diff`, `old_diff`, `current_pred`, and the
counterfactual vector.  The loop keeps stepping field `featIx` by
`sign(diff) * change` while `abs(diff) > 10e-4`, the sign of `diff*old_diff`
is positive and the prediction is strictly on the valid side; a step whose
prediction crosses strictly to the invalid side is rolled back and the
function returns. -/
def linearLoop (pred : List ℚ → ℚ) (tc thr change : ℚ)
    (query : List ℚ) (featIx : ℕ) :
    ℕ → ℚ → ℚ → ℚ → List ℚ → List ℚ
  | 0, _, _, _, cf => cf
  | fuel + 1, diff, oldDiff, curPred, cf =>
    if |diff| > 1/1000 ∧ qsign (diff * oldDiff) > 0 ∧
        stillValidStrict tc thr curPred then
      let oldVal := cf.getD featIx 0
      let cf1 := cf.set featIx (oldVal + qsign diff * change)
      let p1 := pred cf1
      if crossedStrict tc thr p1 then
        cf1.set featIx oldVal
      else
        linearLoop pred tc thr change query featIx fuel
          (query.getD featIx 0 - cf1.getD featIx 0) diff p1 cf1
    else cf

/-- `do_linear_search` (`explainer_base.py` lines 401-421).  `change` is the
minimal possible change `(10**-decimal_prec[feat_ix]) / (cont_maxx - cont_minx)`;
`old_diff` starts equal to `diff`. -/
def do_linear_search (pred : List ℚ → ℚ) (tc thr : ℚ) (prec : ℕ)
    (contMin contMax : ℚ) (query : List ℚ) (featIx : ℕ)
    (fuel : ℕ) (diff curPred : ℚ) (cf : List ℚ) : List ℚ :=
  linearLoop pred tc thr ((1 / 10 ^ prec) / (contMax - contMin))
    query featIx fuel diff diff curPred cf

/-- The ascending (`diff > 0`) `while` loop of `do_binary_search`
(`explainer_base.py` lines 441-454), fuel-indexed.  Note that the source
breaks out of the loop — keeping the just-written midpoint in the
counterfactual — as soon as the rounded midpoint coincides with either
interval end, before consulting the prediction made at that midpoint. -/
def binarySearchUp (pred : List ℚ → ℚ) (tc thr : ℚ) (prec : ℕ)
    (featIx : ℕ) : ℕ → ℚ → ℚ → List ℚ → List ℚ
  | 0, _, _, cf => cf
  | fuel + 1, left, right, cf =>
    if left ≤ right then
      let currentVal := pyRound (left + (right - left) / 2) prec
      let cf1 := cf.set featIx currentVal
      let p1 := pred cf1
      if currentVal = right ∨ currentVal = left then cf1
      else if stillValidStrict tc thr p1 then
        binarySearchUp pred tc thr prec featIx fuel
          (currentVal + 1 / 10 ^ prec) right cf1
      else
        binarySearchUp pred tc thr prec featIx fuel
          left (currentVal - 1 / 10 ^ prec) cf1
    else cf

/-- The descending (`diff <= 0`) `while` loop of `do_binary_search`
(`explainer_base.py` lines 460-473), fuel-indexed. -/
def binarySearchDown (pred : List ℚ → ℚ) (tc thr : ℚ) (prec : ℕ)
    (featIx : ℕ) : ℕ → ℚ → ℚ → List ℚ → List ℚ
  | 0, _, _, cf => cf
  | fuel + 1, left, right, cf =>
    if right ≥ left then
      let currentVal := pyRound (right - (right - left) / 2) prec
      let cf1 := cf.set featIx currentVal
      let p1 := pred cf1
      if currentVal = right ∨ currentVal = left then cf1
      else if stillValidStrict tc thr p1 then
        binarySearchDown pred tc thr prec featIx fuel
          left (currentVal - 1 / 10 ^ prec) cf1
      else
        binarySearchDown pred tc thr prec featIx fuel
          (currentVal + 1 / 10 ^ prec) right cf1
    else cf

/-- `do_binary_search` (`explainer_base.py` lines 423-475): first tries
assigning the query value to the field outright; if the resulting prediction
is strictly on the valid side the assignment is kept, otherwise it is rolled
back and a bisection between the counterfactual value and the query value is
run in the direction given by the sign of `diff`. -/
def do_binary_search (pred : List ℚ → ℚ) (tc thr : ℚ) (prec : ℕ)
    (query : List ℚ) (featIx : ℕ) (diff : ℚ) (cf : List ℚ)
    (fuel : ℕ) : List ℚ :=
  let oldVal := cf.getD featIx 0
  let cfq := cf.set featIx (query.getD featIx 0)
  if stillValidStrict tc thr (pred cfq) then cfq
  else
    let cf0 := cfq.set featIx oldVal
    if 0 < diff then
      binarySearchUp pred tc thr prec featIx fuel
        (cf0.getD featIx 0) (query.getD featIx 0) cf0
    else
      binarySearchDown pred tc thr prec featIx fuel
        (query.getD featIx 0) (cf0.getD featIx 0) cf0

/-- Oracle used by the `do_binary_search` counterexample:
`pred(x) = 3 * x[0] / 10`. -/
def predCEx : List ℚ → ℚ := fun l => 3 * l.getD 0 0 / 10

/-- Target-class resolution (`dice_genetic.py` lines 214-215 and
`explainer_base.py` lines 109-110): `desired_class == "opposite"` (modelled
by `none`) resolves to `1.0 - round(test_pred)`; an explicit class is kept. -/
def resolveDesiredClass (desiredClass : Option ℚ) (testPred : ℚ) : ℚ :=
  match desiredClass with
  | none => 1 - (rhe testPred : ℚ)
  | some c => c

/-- Stopping-threshold adjustment (`dice_genetic.py` lines 218-222 and
`explainer_base.py` lines 113-117): class 0 with threshold above 0.5 forces
0.25; class 1 with threshold below 0.5 forces 0.75; otherwise unchanged. -/
def resolveStoppingThreshold (tc thr : ℚ) : ℚ :=
  if tc = 0 ∧ 1/2 < thr then 1/4
  else if tc = 1 ∧ thr < 1/2 then 3/4
  else thr

/-- `compute_dist` (`dice_genetic.py` lines 102-104): the weighted L1
distance `np.sum(np.multiply(abs(x_hat - x1), feature_weights_list))`. -/
def compute_dist (weights xhat x1 : List ℚ) : ℚ :=
  ((xhat.zipWith (fun a b => |a - b|) x1).zipWith (fun d w => d * w)
    weights).sum

/-- `dpp_style` with submethod `inverse_dist` (`dice_genetic.py` lines
116-122, 131): a `total_CFs × total_CFs` kernel with entries
`1/(1 + dist(cfs i, cfs j))` and `0.0001` added to each diagonal entry. -/
def dpp_style_inverse (weights : List ℚ) (totalCFs : ℕ)
    (cfs : List (List ℚ)) : Matrix (Fin totalCFs) (Fin totalCFs) ℚ :=
  Matrix.of fun i j =>
    if (i : ℕ) = (j : ℕ) then
      1 / (1 + compute_dist weights (cfs.getD i []) (cfs.getD j [])) + 1/10000
    else
      1 / (1 + compute_dist weights (cfs.getD i []) (cfs.getD j []))

/-- The diversity score for the dpp inverse variant (`dice_genetic.py` line
132): the determinant of the kernel. -/
def diversity_loss_dpp_inverse (weights : List ℚ) (totalCFs : ℕ)
    (cfs : List (List ℚ)) : ℚ :=
  (dpp_style_inverse weights totalCFs cfs).det

/-- `get_continuous_samples` (`explainer_base.py` lines 389-399).  The raw
numpy draws are passed in explicitly: `intDraws` stands for
`np.random.randint(low, high+1, size)` (integers in `[low, high]`) and
`contDraws` for `np.random.uniform(low, high + 10**-precision, size)`
(rationals in `[low, high + 10^-precision)`); the corresponding range
facts appear as hypotheses on the theorems about this function. -/
def get_continuous_samples (low high : ℚ) (precision : ℕ)
    (intDraws : List ℤ) (contDraws : List ℚ) : List ℚ :=
  if precision = 0 then intDraws.map (fun r : ℤ => (r : ℚ))
  else contDraws.map (fun r => pyRound r precision)

/-- The member-loop bound of `do_posthoc_sparsity_enhancement`
(`explainer_base.py` lines 229-230): `loop_find_CFs` is
`total_random_inits` when positive and 1 otherwise, and the member loop is
`range(min(max(loop_find_CFs, self.total_CFs), len(final_cfs_sparse)))`. -/
def posthoc_loop_bound (totalRandomInits totalCFs numCfs : ℕ) : ℕ :=
  min (max (if 0 < totalRandomInits then totalRandomInits else 1) totalCFs)
    numCfs

/-- `df.sample(n=total_CFs, random_state=seed)` on the valid rows
(`explainer_base.py` line 132): `n` distinct rows drawn without
replacement, modelled by an explicit index stream; each step removes the
chosen row from the pool. -/
def pandasSample : List ℕ → ℕ → List (List ℚ × ℚ) → List (List ℚ × ℚ)
  | _, 0, _ => []
  | idxs, n + 1, l =>
    if l.length = 0 then []
    else
      l.getD (idxs.headD 0 % l.length) ⟨[], 0⟩ ::
        pandasSample idxs.tail n (l.eraseIdx (idxs.headD 0 % l.length))

/-- Outcome of the Independent Sampling Search selection step. -/
structure SamplingResult where
  finalCfs : List (List ℚ × ℚ)
  validCfsFound : Bool
  totalCfsFound : ℕ

/-- The validity-filtering and selection step of the Independent Sampling
Search (`explainer_base.py` lines 127-138): rows are pairs of an encoded
vector and its prediction; `total_cfs_found` counts the valid rows; when it
reaches `total_CFs` exactly `total_CFs` valid rows are sampled and
`valid_cfs_found` is set, otherwise all valid rows are returned with the
flag cleared (and the caller reports found-versus-requested counts rather
than raising). -/
def samplingSelect (tc thr : ℚ) (totalCFs : ℕ)
    (samples : List (List ℚ × ℚ)) (idxs : List ℕ) : SamplingResult :=
  let valid := samples.filter (fun s => validCF tc thr s.2)
  if totalCFs ≤ valid.length then
    ⟨pandasSample idxs totalCFs valid, true, valid.length⟩
  else
    ⟨valid, false, valid.length⟩

/-- `np.random.uniform(lo, hi)` driven by a raw draw `u ∈ [0, 1)`. -/
def uniformDraw (lo hi u : ℚ) : ℚ := lo + u * (hi - lo)

/-- The counterfactual-generation algorithm selector of
`do_cf_initializations`. -/
inductive Algorithm where
  | DiverseCF : Algorithm
  | RandomInitCF : Algorithm
  deriving DecidableEq

/-- One candidate vector of the genetic initialization
(`explainer_base.py` lines 298-300): for every feature index `jx` a fresh
`np.random.uniform(self.minx[0][jx], self.maxx[0][jx])` draw.  Note that
the source draws for *every* feature: the `freezer`/`feat_to_vary_idxs`
data computed at lines 286-290 is never consulted here (or anywhere), so
features excluded from `features_to_vary` are not pinned to the query
value. -/
def initOneVector (minx maxx : List ℚ) (nFeat : ℕ) (us : List ℚ) :
    List ℚ :=
  (List.range nFeat).map fun jx =>
    uniformDraw (minx.getD jx 0) (maxx.getD jx 0) (us.getD jx 0)

/-- One counterfactual set of the initialization (`explainer_base.py`
lines 296-301): `self.total_CFs` vectors. -/
def initCfSet (minx maxx : List ℚ) (nFeat totalCFs : ℕ) (us : List ℚ) :
    List (List ℚ) :=
  (List.range totalCFs).map fun ix =>
    initOneVector minx maxx nFeat (us.drop (ix * nFeat))

/-- The population initialization (`explainer_base.py` lines 293-302):
`population_size` counterfactual sets. -/
def initPopulation (minx maxx : List ℚ) (nFeat totalCFs popSize : ℕ)
    (us : List ℚ) : List (List (List ℚ)) :=
  (List.range popSize).map fun kx =>
    initCfSet minx maxx nFeat totalCFs (us.drop (kx * totalCFs * nFeat))

/-- Result of `do_cf_initializations`. -/
structure CfInit where
  totalRandomInits : ℕ
  totalCFs : ℕ
  cfs : List (List (List ℚ))

/-- `do_cf_initializations` (`explainer_base.py` lines 272-302): under
`RandomInitCF` the internal counterfactual-set size `self.total_CFs` is
forced to 1 and `total_random_inits` takes the requested count; under
`DiverseCF` the requested count is kept.  The population is (re)drawn when
the previously stored `self.cfs` does not have length `self.total_CFs`
(the source's stored-parameter comparison). -/
def do_cf_initializations (popSize : ℕ) (minx maxx : List ℚ)
    (nFeat totalCFs : ℕ) (algorithm : Algorithm)
    (prevCfs : List (List (List ℚ))) (us : List ℚ) : CfInit :=
  let tri := if algorithm = Algorithm.RandomInitCF then totalCFs else 0
  let tcf := if algorithm = Algorithm.RandomInitCF then 1 else totalCFs
  let cfs := if prevCfs.length ≠ tcf then
      initPopulation minx maxx nFeat tcf popSize us
    else prevCfs
  ⟨tri, tcf, cfs⟩

/-- Field-wise mating of two parent vectors (`dice_genetic.py` lines
184-199): per gene, `prob = random.random()`; `prob < 0.45` inherits from
parent 1, `prob < 0.90` from parent 2, otherwise a fresh uniform draw from
the feature's domain (mutation — again ignoring `features_to_vary`).
`probs` models the `random.random()` stream, `us` the numpy uniform
stream; `zip` makes the child as long as the shorter parent. -/
def mateVector (minx maxx : List ℚ) (v1 v2 : List ℚ) (probs us : List ℚ) :
    List ℚ :=
  (List.range (min v1.length v2.length)).map fun jx =>
    if probs.getD jx 0 < 45/100 then v1.getD jx 0
    else if probs.getD jx 0 < 90/100 then v2.getD jx 0
    else uniformDraw (minx.getD jx 0) (maxx.getD jx 0) (us.getD jx 0)

/-- `mate` (`dice_genetic.py` lines 177-201): the child set has exactly
`self.total_CFs` members, the i-th produced by field-wise mating of the
parents' i-th members. -/
def mate (minx maxx : List ℚ) (nFeat totalCFs : ℕ)
    (k1 k2 : List (List ℚ)) (probs us : List ℚ) : List (List ℚ) :=
  (List.range totalCFs).map fun i =>
    mateVector minx maxx (k1.getD i []) (k2.getD i [])
      (probs.drop (i * nFeat)) (us.drop (i * nFeat))

/-- The per-generation fitness list (`dice_genetic.py` lines 229-234):
`(k, loss(population[k]))` for every `k < population_size`. -/
def computeFitness (lossFn : List (List ℚ) → ℚ) (popSize : ℕ)
    (population : List (List (List ℚ))) : List (ℕ × ℚ) :=
  (List.range popSize).map fun k => (k, lossFn (population.getD k []))

/-- One update of the running strict minimum of `dice_genetic.py` lines
236-238 (`if loss < current_best_loss`): `none` plays the role of the
initial `np.inf` best loss. -/
def argminStep : Option (ℕ × ℚ) → ℕ × ℚ → Option (ℕ × ℚ)
  | none, kv => some kv
  | some best, kv => if kv.2 < best.2 then some kv else some best

/-- The running strict minimum over the whole fitness list: the first index
attaining the minimal loss (`current_best_cf`). -/
def argminFirst (l : List (ℕ × ℚ)) : Option (ℕ × ℚ) :=
  l.foldl argminStep none

/-- One insertion step of a stable sort on the loss component. -/
def insertFitness (x : ℕ × ℚ) : List (ℕ × ℚ) → List (ℕ × ℚ)
  | [] => [x]
  | y :: ys => if y.2 ≤ x.2 then y :: insertFitness x ys else x :: y :: ys

/-- Python's stable `sorted(population_fitness, key=lambda x: x[1])`
(`dice_genetic.py` line 247), as insertion sort on the loss component. -/
def sortFitness (l : List (ℕ × ℚ)) : List (ℕ × ℚ) :=
  l.foldr insertFitness []

/-- The mating pool of `dice_genetic.py` lines 254-255:
`population[:int(50 * self.population_size / 100)]` — the first half of
the population *in its current order*; `population` is not reordered by
the fitness sort at line 247, which only sorts the separate
`population_fitness` index list. -/
def matingPool (popSize : ℕ) (population : List (List (List ℚ))) :
    List (List (List ℚ)) :=
  population.take (50 * popSize / 100)

/-- What the source comment at `dice_genetic.py` line 251 ("90% of the next
generation obtained from top 50% of fittest members of current
generation") and the spec describe: the 50% lowest-loss sets. -/
def bestHalfByLoss (lossFn : List (List ℚ) → ℚ) (popSize : ℕ)
    (population : List (List (List ℚ))) : List (List (List ℚ)) :=
  ((sortFitness (computeFitness lossFn popSize population)).take
    (50 * popSize / 100)).map fun tup => population.getD tup.1 []

/-- `random.choice` over a list, driven by one draw of an index stream. -/
def randomChoice (l : List (List (List ℚ))) (k : ℕ) : List (List ℚ) :=
  l.getD (k % l.length) []

/-- The random draws consumed by one generation: the `random.random()`
stream, the numpy uniform stream, and the `random.choice` index stream. -/
structure GenRng where
  probs : List ℚ
  us : List ℚ
  idxs : List ℕ

/-- The elitism step of `dice_genetic.py` lines 246-249: the next
generation starts with the sets whose indices head the loss-sorted fitness
list — `int(10 * population_size / 100)` of them. -/
def eliteSelection (lossFn : List (List ℚ) → ℚ) (popSize : ℕ)
    (population : List (List (List ℚ))) : List (List (List ℚ)) :=
  ((sortFitness (computeFitness lossFn popSize population)).take
    (10 * popSize / 100)).map fun tup => population.getD tup.1 []

/-- The reproduction step of `dice_genetic.py` lines 251-257:
`int(90 * population_size / 100)` children, each mated from two
`random.choice` picks out of `population[:50%]`. -/
def reproduction (minx maxx : List ℚ) (nFeat popSize totalCFs : ℕ)
    (population : List (List (List ℚ))) (rng : GenRng) :
    List (List (List ℚ)) :=
  (List.range (90 * popSize / 100)).map fun t =>
    mate minx maxx nFeat totalCFs
      (randomChoice (matingPool popSize population) (rng.idxs.getD (2 * t) 0))
      (randomChoice (matingPool popSize population)
        (rng.idxs.getD (2 * t + 1) 0))
      (rng.probs.drop (t * totalCFs * nFeat))
      (rng.us.drop (t * totalCFs * nFeat))

/-- One generation replacement (`dice_genetic.py` lines 246-259):
elite 10% followed by 90% children. -/
def nextGeneration (lossFn : List (List ℚ) → ℚ) (minx maxx : List ℚ)
    (nFeat popSize totalCFs : ℕ) (population : List (List (List ℚ)))
    (rng : GenRng) : List (List (List ℚ)) :=
  eliteSelection lossFn popSize population ++
    reproduction minx maxx nFeat popSize totalCFs population rng

/-- The convergence loop of `find_counterfactuals` (`dice_genetic.py`
lines 228-259), fuel-indexed (`none` = fuel exhausted before the loop's
only exit; the source loop has no generation cap).  Per iteration: score
every population member, track the first strict-minimum-loss set
(`current_best_cf`); stop successfully when every member of that set has a
valid prediction; otherwise replace the population with
`nextGeneration`. -/
def geneticLoop (lossFn : List (List ℚ) → ℚ) (pred : List ℚ → ℚ)
    (tc thr : ℚ) (minx maxx : List ℚ) (nFeat popSize totalCFs : ℕ) :
    ℕ → List (List (List ℚ)) → List GenRng → Option (List (List ℚ))
  | 0, _, _ => none
  | fuel + 1, population, rngs =>
    match argminFirst (computeFitness lossFn popSize population) with
    | none => none
    | some best =>
      if (tc = 0 ∧ ∀ c ∈ population.getD best.1 [], pred c ≤ thr) ∨
          (tc = 1 ∧ ∀ c ∈ population.getD best.1 [], thr ≤ pred c) then
        some (population.getD best.1 [])
      else
        geneticLoop lossFn pred tc thr minx maxx nFeat popSize totalCFs
          fuel
          (nextGeneration lossFn minx maxx nFeat popSize totalCFs
            population (rngs.headD ⟨[], [], []⟩))
          rngs.tail

/-- `find_counterfactuals` (`dice_genetic.py` lines 203-262) composed with
`do_cf_initializations` (a fresh explainer: `self.cfs = []`): resolve the
target spec from the query prediction, initialize the population, run the
genetic loop; on success `self.final_cfs = current_best_cf`. -/
def find_counterfactuals (popSize nFeat : ℕ) (minx maxx : List ℚ)
    (lossFn : List (List ℚ) → ℚ) (pred : List ℚ → ℚ)
    (totalCFs : ℕ) (algorithm : Algorithm) (query : List ℚ)
    (desiredClass : Option ℚ) (stoppingThreshold : ℚ)
    (initUs : List ℚ) (rngs : List GenRng) (fuel : ℕ) :
    Option (List (List ℚ)) :=
  let init := do_cf_initializations popSize minx maxx nFeat totalCFs
    algorithm [] initUs
  let tc := resolveDesiredClass desiredClass (pred query)
  let thr := resolveStoppingThreshold tc stoppingThreshold
  geneticLoop lossFn pred tc thr minx maxx nFeat popSize init.totalCFs
    fuel init.cfs rngs

/-- Mutable numpy arrays are modelled through an address-indexed heap:
each address holds one array (an encoded vector, or a stored prediction
row).  `self.final_cfs` / `self.cfs_preds` are lists of addresses. -/
abbrev Heap := ℕ → List ℚ

/-- Write the array at address `a`. -/
def hupd (h : Heap) (a : ℕ) (v : List ℚ) : Heap :=
  fun x => if x = a then v else h x

/-- `copy.deepcopy` of a list of arrays (`explainer_base.py` lines
148-149, `dice_genetic.py` lines 266-267): one fresh address is allocated
per array, holding a copy of the original contents; original addresses are
untouched and no address is shared with the source list. -/
def deepcopyList (h : Heap) : ℕ → List ℕ → Heap × ℕ × List ℕ
  | next, [] => (h, next, [])
  | next, a :: rest =>
    let res := deepcopyList (hupd h next (h a)) (next + 1) rest
    (res.1, res.2.1, next :: res.2.2)

/-- One iteration of the member loop of `do_posthoc_sparsity_enhancement`
(`explainer_base.py` lines 231-248): if the member's prediction is
strictly on the invalid side, skip it (`continue`); otherwise overwrite
its array in place with the refined vector (`refine` abstracts the
per-feature linear/binary search pipeline, which reads and writes only
that member's array) and store the refreshed prediction in
`cfs_preds_sparse[cf_ix]`. -/
def posthocStep (pred : List ℚ → ℚ) (tc thr : ℚ)
    (refine : List ℚ → List ℚ) (sparseAddrs predAddrs : List ℕ)
    (hcur : Heap) (cfIx : ℕ) : Heap :=
  if crossedStrict tc thr (pred (hcur (sparseAddrs.getD cfIx 0))) then hcur
  else
    hupd
      (hupd hcur (sparseAddrs.getD cfIx 0)
        (refine (hcur (sparseAddrs.getD cfIx 0))))
      (predAddrs.getD cfIx 0)
      [pred (refine (hcur (sparseAddrs.getD cfIx 0)))]

/-- The member loop of `do_posthoc_sparsity_enhancement`
(`explainer_base.py` lines 229-248) over the heap, iterating member
indices up to `posthoc_loop_bound`. -/
def do_posthoc_heap (pred : List ℚ → ℚ) (tc thr : ℚ)
    (refine : List ℚ → List ℚ) (totalRandomInits totalCFs : ℕ)
    (h : Heap) (sparseAddrs predAddrs : List ℕ) : Heap :=
  (List.range (posthoc_loop_bound totalRandomInits totalCFs
    sparseAddrs.length)).foldl
    (posthocStep pred tc thr refine sparseAddrs predAddrs) h

/-- Result of the deep-copy-then-refine stage. -/
structure SparsityOut where
  heap : Heap
  next : ℕ
  sparseAddrs : List ℕ
  predAddrs : List ℕ

/-- The sparsity stage of `generate_counterfactuals` (`explainer_base.py`
lines 146-150) and `find_counterfactuals` (`dice_genetic.py` lines
264-268): `final_cfs_sparse = copy.deepcopy(self.final_cfs)`,
`cfs_preds_sparse = copy.deepcopy(self.cfs_preds)`, then
`do_posthoc_sparsity_enhancement` runs on the copies. -/
def sparsity_stage (pred : List ℚ → ℚ) (tc thr : ℚ)
    (refine : List ℚ → List ℚ) (totalRandomInits totalCFs : ℕ)
    (h : Heap) (next : ℕ) (finalCfs cfsPreds : List ℕ) : SparsityOut :=
  let c1 := deepcopyList h next finalCfs
  let c2 := deepcopyList c1.1 c1.2.1 cfsPreds
  ⟨do_posthoc_heap pred tc thr refine totalRandomInits totalCFs c2.1
      c1.2.2 c2.2.2,
    c2.2.1, c1.2.2, c2.2.2⟩

/-- Concrete two-array heap used by the `sparsity_stage` witness: address
0 holds the final counterfactual `[1]`, address 1 its stored prediction
row `[0]`. -/
def heapCEx : Heap := hupd (hupd (fun _ => []) 0 [1]) 1 [0]

/-- Unfolding of the validity flag. -/
theorem validCF_iff (tc thr p : ℚ) :
    validCF tc thr p = true ↔ (tc = 0 ∧ p ≤ thr) ∨ (tc = 1 ∧ thr ≤ p) := by
  simp [validCF]

/-- Writing back the value a slot already holds is a no-op. -/
theorem set_getD_self (l : List ℚ) (i : ℕ) (d : ℚ) :
    l.set i (l.getD i d) = l := by
  induction l generalizing i with
  | nil => simp
  | cons x xs ih =>
    cases i with
    | zero => simp [List.getD]
    | succ n => simp only [List.getD_cons_succ, List.set_cons_succ, ih]

/-- A prediction that is strictly on the valid side is valid. -/
theorem validCF_of_stillValidStrict {tc thr p : ℚ}
    (h : stillValidStrict tc thr p) : validCF tc thr p = true := by
  rw [validCF_iff]
  rcases h with ⟨h0, hlt⟩ | ⟨h1, hlt⟩
  · exact Or.inl ⟨h0, le_of_lt hlt⟩
  · exact Or.inr ⟨h1, le_of_lt hlt⟩

/-- A prediction that did not cross strictly to the invalid side is still
valid, provided the target class is 0 or 1. -/
theorem validCF_of_not_crossed {tc thr p p' : ℚ}
    (hsv : stillValidStrict tc thr p) (hnc : ¬ crossedStrict tc thr p') :
    validCF tc thr p' = true := by
  rw [validCF_iff]
  rcases hsv with ⟨h0, _⟩ | ⟨h1, _⟩
  · refine Or.inl ⟨h0, ?_⟩
    by_contra hlt
    exact hnc (Or.inl ⟨h0, lt_of_not_le hlt⟩)
  · refine Or.inr ⟨h1, ?_⟩
    by_contra hlt
    exact hnc (Or.inr ⟨h1, lt_of_not_le hlt⟩)

/-- Every state the linear-search loop commits stays valid: the loop only
runs while the prediction is strictly valid, and a step whose prediction
crosses strictly to the invalid side is rolled back to the previous (valid)
value before returning. -/
theorem linearLoop_preserves_validity (pred : List ℚ → ℚ)
    (tc thr change : ℚ) (query : List ℚ) (featIx : ℕ) :
    ∀ (fuel : ℕ) (diff oldDiff curPred : ℚ) (cf : List ℚ),
      curPred = pred cf → validCF tc thr (pred cf) = true →
      validCF tc thr (pred (linearLoop pred tc thr change query featIx
        fuel diff oldDiff curPred cf)) = true
  | 0, diff, oldDiff, curPred, cf, _, hv => by
    simpa only [linearLoop] using hv
  | fuel + 1, diff, oldDiff, curPred, cf, hp, hv => by
    simp only [linearLoop]
    split
    case isTrue hguard =>
      obtain ⟨-, -, hsv⟩ := hguard
      rw [hp] at hsv
      split
      case isTrue hc =>
        rw [List.set_set, set_getD_self]
        exact hv
      case isFalse hc =>
        exact linearLoop_preserves_validity pred tc thr change query featIx
          fuel _ _ _ _ rfl (validCF_of_not_crossed hsv hc)
    case isFalse hguard => exact hv

/-- C1, amended part (the linear refinement variant):
`do_linear_search` never degrades validity.  For every oracle `pred`, every
target class and threshold, and every starting counterfactual whose
prediction is valid (with `current_pred` the prediction of that
counterfactual, as at the call site in `do_posthoc_sparsity_enhancement`),
the counterfactual returned by `do_linear_search` still has a valid
prediction, for any amount of loop fuel. -/
theorem do_linear_search_preserves_validity (pred : List ℚ → ℚ)
    (tc thr : ℚ) (prec : ℕ) (contMin contMax : ℚ) (query : List ℚ)
    (featIx fuel : ℕ) (diff curPred : ℚ) (cf : List ℚ)
    (hp : curPred = pred cf) (hv : validCF tc thr (pred cf) = true) :
    validCF tc thr (pred (do_linear_search pred tc thr prec contMin contMax
      query featIx fuel diff curPred cf)) = true :=
  linearLoop_preserves_validity pred tc thr _ query featIx fuel diff diff
    curPred cf hp hv

/-- Witness for `do_linear_search_preserves_validity` at a concrete input:
oracle `pred(x) = 3*x[0]/10`, target class 0, threshold 1/2, starting
counterfactual `[1]` (prediction 3/10, valid), query `[2]`. -/
theorem do_linear_search_preserves_validity_witness :
    validCF 0 (1/2) (predCEx (do_linear_search predCEx 0 (1/2) 0 0 1 [2] 0 3
      1 (predCEx [1]) [1])) = true :=
  do_linear_search_preserves_validity predCEx 0 (1/2) 0 0 1 [2] 0 3 1
    (predCEx [1]) [1] rfl (by norm_num [validCF, predCEx, List.getD])

/-- C1 counterexample (the binary refinement variant): with oracle
`pred(x) = 3*x[0]/10`, target class 0, threshold 1/2, decimal precision 0,
query instance `[2]` and input counterfactual `[1]` (prediction 3/10 ≤ 1/2,
valid), `do_binary_search` returns `[2]`, whose prediction 3/5 > 1/2 is
invalid: the bisection midpoint `1 + (2-1)/2 = 1.5` rounds (half-to-even)
to `2`, which equals the right end of the interval, so the loop breaks with
the just-written — and never re-validated — value `2` committed. -/
theorem do_binary_search_validity_counterexample :
    validCF 0 (1/2) (predCEx [1]) = true ∧
    do_binary_search predCEx 0 (1/2) 0 [2] 0 1 [1] 5 = [2] ∧
    validCF 0 (1/2) (predCEx [2]) = false := by
  refine ⟨by norm_num [validCF, predCEx, List.getD], ?_,
    by norm_num [validCF, predCEx, List.getD]⟩
  norm_num [do_binary_search, binarySearchUp, pyRound, rhe, stillValidStrict,
    predCEx, List.getD]

/-- C5: target resolution.  For `desired_class == "opposite"` the resolved
class is `1 - round(p0)` (Python half-to-even rounding); afterwards a class-0
threshold strictly above 0.5 is forced to 0.25, a class-1 threshold strictly
below 0.5 is forced to 0.75, any other threshold is kept unchanged, and a
threshold of exactly 0.5 is never altered. -/
theorem target_resolution_correct (p0 thr tc : ℚ) :
    resolveDesiredClass none p0 = 1 - (rhe p0 : ℚ) ∧
    (tc = 0 → 1/2 < thr → resolveStoppingThreshold tc thr = 1/4) ∧
    (tc = 1 → thr < 1/2 → resolveStoppingThreshold tc thr = 3/4) ∧
    (¬ (tc = 0 ∧ 1/2 < thr) → ¬ (tc = 1 ∧ thr < 1/2) →
      resolveStoppingThreshold tc thr = thr) ∧
    resolveStoppingThreshold tc (1/2) = 1/2 := by
  refine ⟨rfl, ?_, ?_, ?_, ?_⟩
  · intro h0 hgt
    rw [resolveStoppingThreshold, if_pos ⟨h0, hgt⟩]
  · intro h1 hlt
    rw [resolveStoppingThreshold]
    split
    case isTrue hc => exact absurd (hc.1 ▸ h1) (by norm_num)
    case isFalse hc => rw [if_pos ⟨h1, hlt⟩]
  · intro hc1 hc2
    rw [resolveStoppingThreshold, if_neg hc1, if_neg hc2]
  · rw [resolveStoppingThreshold]
    norm_num

/-- Witness for `target_resolution_correct`: class 0 with threshold 0.6 is
clamped to 0.25; threshold exactly 0.5 is kept; a class-1 threshold 0.6 is
kept unchanged. -/
theorem target_resolution_correct_witness :
    resolveStoppingThreshold 0 (3/5) = 1/4 ∧
    resolveStoppingThreshold 0 (1/2) = 1/2 ∧
    resolveStoppingThreshold 1 (3/5) = 3/5 :=
  ⟨(target_resolution_correct (7/10) (3/5) 0).2.1 rfl (by norm_num),
   (target_resolution_correct (7/10) (1/2) 0).2.2.2.2,
   (target_resolution_correct (7/10) (3/5) 1).2.2.2.1 (by norm_num)
     (by norm_num)⟩

/-- The weighted L1 distance from a vector to itself is 0, for any weights. -/
theorem compute_dist_self (weights c : List ℚ) :
    compute_dist weights c c = 0 := by
  induction c generalizing weights with
  | nil => simp [compute_dist]
  | cons x xs ih =>
    cases weights with
    | nil => simp [compute_dist]
    | cons w ws => simpa [compute_dist] using ih ws

/-- C7: for the `dpp:inverse_dist` diversity variant with `total_CFs == 2`
and two identical candidate vectors, the kernel built by `dpp_style` is
exactly `[[1.0001, 1.0], [1.0, 1.0001]]` (off-diagonal `1/(1+0) = 1`,
diagonal `1 + 0.0001`), and its determinant — the diversity score — equals
`1.0001^2 - 1 = 0.00020001`. -/
theorem dpp_inverse_identical_kernel (weights c : List ℚ) :
    dpp_style_inverse weights 2 [c, c] =
      !![10001/10000, 1; 1, 10001/10000] ∧
    diversity_loss_dpp_inverse weights 2 [c, c] = 20001/100000000 := by
  have hm : dpp_style_inverse weights 2 [c, c] =
      !![10001/10000, 1; 1, 10001/10000] := by
    ext i j
    fin_cases i <;> fin_cases j <;>
      simp [dpp_style_inverse, compute_dist_self, List.getD] <;> norm_num
  refine ⟨hm, ?_⟩
  rw [diversity_loss_dpp_inverse, hm, Matrix.det_fin_two_of]
  norm_num

/-- Evaluation helper for `rhe` once the floor is known. -/
theorem rhe_eq_of_floor (q : ℚ) (f : ℤ) (hf : ⌊q⌋ = f) :
    rhe q = if q - f < 1/2 then f
      else if 1/2 < q - f then f + 1
      else if f % 2 = 0 then f else f + 1 := by
  simp only [rhe, hf]

/-- The floor is a lower bound for Python rounding. -/
theorem floor_le_rhe (q : ℚ) : ⌊q⌋ ≤ rhe q := by
  simp only [rhe]
  repeat' split
  all_goals omega

/-- Python rounding exceeds the floor by at most one. -/
theorem rhe_le_floor_add_one (q : ℚ) : rhe q ≤ ⌊q⌋ + 1 := by
  simp only [rhe]
  repeat' split
  all_goals omega

/-- C8 counterexample: with permitted range `[0, 1]` and precision 1, the
draw `1.09` is a legitimate output of
`np.random.uniform(low, high + 10**-precision)` (it lies in `[0, 1.1)`),
and `get_continuous_samples` turns it into `round(1.09, 1) = 1.1`, which is
strictly greater than `high = 1`: a drawn value outside the permitted
range. -/
theorem continuous_sampling_range_counterexample :
    ((0:ℚ) ≤ 109/100 ∧ (109:ℚ)/100 < 1 + 1/10^(1:ℕ)) ∧
    get_continuous_samples 0 1 1 [] [109/100] = [11/10] ∧
    ¬ ((11:ℚ)/10 ≤ 1) := by
  refine ⟨by norm_num, ?_, by norm_num⟩
  rw [get_continuous_samples]
  norm_num [pyRound]
  rw [rhe_eq_of_floor ((109:ℚ)/10) 10 (by norm_num)]
  norm_num

/-- C8, amended: when `low` and `high` are representable at the field's
precision (`low = L/10^p`, `high = H/10^p`), every value produced by
`get_continuous_samples` is representable at that precision and lies in
`[low, high + 10^-p]` — i.e. it may overshoot `high` by at most one
precision unit; with precision 0 every value is an integer lying in
`[low, high]` exactly. -/
theorem continuous_sampling_range_amended (low high : ℚ) (precision : ℕ)
    (intDraws : List ℤ) (contDraws : List ℚ) (L H : ℤ)
    (hL : low = (L : ℚ) / 10 ^ precision)
    (hH : high = (H : ℚ) / 10 ^ precision)
    (hint : ∀ r ∈ intDraws, low ≤ (r : ℚ) ∧ (r : ℚ) ≤ high)
    (hcont : ∀ r ∈ contDraws, low ≤ r ∧ r < high + 1 / 10 ^ precision) :
    ∀ v ∈ get_continuous_samples low high precision intDraws contDraws,
      (∃ k : ℤ, v = (k : ℚ) / 10 ^ precision) ∧
      low ≤ v ∧ v ≤ high + 1 / 10 ^ precision ∧
      (precision = 0 → v ≤ high) := by
  intro v hv
  rw [get_continuous_samples] at hv
  split at hv
  case isTrue hp =>
    rw [List.mem_map] at hv
    obtain ⟨r, hr, rfl⟩ := hv
    obtain ⟨h1, h2⟩ := hint r hr
    refine ⟨⟨r, by rw [hp]; norm_num⟩, h1, ?_, fun _ => h2⟩
    have : (0:ℚ) < 1 / 10 ^ precision := by positivity
    linarith
  case isFalse hp =>
    rw [List.mem_map] at hv
    obtain ⟨r, hr, rfl⟩ := hv
    obtain ⟨h1, h2⟩ := hcont r hr
    have hpow : (0:ℚ) < 10 ^ precision := by positivity
    have hfl : L ≤ ⌊r * 10 ^ precision⌋ := by
      rw [Int.le_floor]
      rw [hL] at h1
      calc ((L:ℚ)) = L / 10 ^ precision * 10 ^ precision := by field_simp
      _ ≤ r * 10 ^ precision :=
          mul_le_mul_of_nonneg_right h1 (le_of_lt hpow)
    have hfu : ⌊r * 10 ^ precision⌋ < H + 1 := by
      rw [Int.floor_lt]
      rw [hH, div_add_div_same] at h2
      push_cast
      calc r * 10 ^ precision
          < ((H:ℚ) + 1) / 10 ^ precision * 10 ^ precision :=
            mul_lt_mul_of_pos_right (by push_cast at h2 ⊢; exact h2) hpow
      _ = (H:ℚ) + 1 := by field_simp
    have hlb : L ≤ rhe (r * 10 ^ precision) :=
      le_trans hfl (floor_le_rhe _)
    have hub : rhe (r * 10 ^ precision) ≤ H + 1 :=
      le_trans (rhe_le_floor_add_one _) (by omega)
    refine ⟨⟨rhe (r * 10 ^ precision), rfl⟩, ?_, ?_, fun h0 => absurd h0 hp⟩
    · rw [hL, pyRound]
      exact (div_le_div_right hpow).2 (by exact_mod_cast hlb)
    · rw [hH, pyRound, div_add_div_same]
      exact (div_le_div_right hpow).2 (by exact_mod_cast hub)

/-- Witness for `continuous_sampling_range_amended`: range `[0, 1]`,
precision 1, draw `0.05`, whose rounding `round(0.05, 1) = 0.0` (half to
even) is representable at precision 1 and lies in `[0, 1.1]`. -/
theorem continuous_sampling_range_amended_witness :
    (0:ℚ) ≤ 0 ∧ (0:ℚ) ≤ 1 + 1 / 10 ^ (1:ℕ) := by
  have h := continuous_sampling_range_amended 0 1 1 [] [1/20] 0 10
    (by norm_num) (by norm_num)
    (by intro r hr; simp at hr)
    (by intro r hr; simp at hr; rw [hr]; norm_num)
    0 (by
      rw [get_continuous_samples]
      norm_num [pyRound]
      rw [rhe_eq_of_floor ((1:ℚ)/2) 0 (by norm_num)]
      norm_num)
  exact ⟨h.2.1, h.2.2.1⟩

/-- C10: the sparsity pass's member loop runs over indices
`0 .. min(max(total_random_inits, total_CFs), len(final_cfs_sparse)) - 1`
(for any requested `total_CFs ≥ 1` the code's `loop_find_CFs` collapses to
this form), so every index it touches is strictly below the length of the
counterfactual list it was given — no out-of-range access even when the
sampling search returned fewer counterfactuals than requested. -/
theorem posthoc_loop_in_bounds (tri tcf numCfs : ℕ) (h : 1 ≤ tcf) :
    posthoc_loop_bound tri tcf numCfs = min (max tri tcf) numCfs ∧
    ∀ i ∈ List.range (posthoc_loop_bound tri tcf numCfs), i < numCfs := by
  constructor
  · rw [posthoc_loop_bound]
    split <;> omega
  · intro i hi
    rw [List.mem_range] at hi
    have hle : posthoc_loop_bound tri tcf numCfs ≤ numCfs := by
      rw [posthoc_loop_bound]
      exact min_le_right _ _
    omega

/-- Witness for `posthoc_loop_in_bounds`: 0 random inits, 2 requested
counterfactuals but only 1 found: the loop bound is 1 and the only index,
0, is within range. -/
theorem posthoc_loop_in_bounds_witness :
    posthoc_loop_bound 0 2 1 = min (max 0 2) 1 ∧ (0:ℕ) < 1 :=
  ⟨(posthoc_loop_in_bounds 0 2 1 (by norm_num)).1,
   (posthoc_loop_in_bounds 0 2 1 (by norm_num)).2 0
     (by norm_num [posthoc_loop_bound, List.mem_range])⟩

/-- An in-range `getD` is a member of the list. -/
theorem getD_mem_of_lt {α : Type} {l : List α} {k : ℕ}
    (hk : k < l.length) (d : α) : l.getD k d ∈ l := by
  rw [List.getD_eq_getElem?_getD, List.getElem?_eq_getElem hk]
  exact List.getElem_mem hk

/-- `pandasSample` returns exactly `min n (pool size)` rows. -/
theorem pandasSample_length (idxs : List ℕ) (n : ℕ)
    (l : List (List ℚ × ℚ)) :
    (pandasSample idxs n l).length = min n l.length := by
  induction n generalizing idxs l with
  | zero => simp [pandasSample]
  | succ m ih =>
    rw [pandasSample]
    split
    case isTrue h => simp [h]
    case isFalse h =>
      have hk : idxs.headD 0 % l.length < l.length :=
        Nat.mod_lt _ (Nat.pos_of_ne_zero h)
      simp only [List.length_cons, ih, List.length_eraseIdx_of_lt hk]
      omega

/-- Every row `pandasSample` returns comes from the pool. -/
theorem pandasSample_subset (idxs : List ℕ) (n : ℕ)
    (l : List (List ℚ × ℚ)) :
    ∀ s ∈ pandasSample idxs n l, s ∈ l := by
  induction n generalizing idxs l with
  | zero => simp [pandasSample]
  | succ m ih =>
    intro s hs
    rw [pandasSample] at hs
    split at hs
    case isTrue h => simp at hs
    case isFalse h =>
      have hk : idxs.headD 0 % l.length < l.length :=
        Nat.mod_lt _ (Nat.pos_of_ne_zero h)
      rcases List.mem_cons.1 hs with h1 | h2
      · rw [h1]
        exact getD_mem_of_lt hk _
      · exact List.mem_of_mem_eraseIdx (ih _ _ s h2)

/-- C6: the Independent Sampling Search never raises on shortfall.
`total_cfs_found` always reports the number of valid samples; when at least
`total_CFs` samples are valid, exactly `total_CFs` of them are selected
(all valid) and `valid_cfs_found` is set; otherwise exactly the valid
samples found are returned — a set smaller than `total_CFs` — with
`valid_cfs_found` cleared, so the caller reports found-versus-requested
counts instead of failing. -/
theorem sampling_shortfall_handling (tc thr : ℚ) (totalCFs : ℕ)
    (samples : List (List ℚ × ℚ)) (idxs : List ℕ) :
    (samplingSelect tc thr totalCFs samples idxs).totalCfsFound =
      (samples.filter (fun s => validCF tc thr s.2)).length ∧
    (totalCFs ≤ (samples.filter (fun s => validCF tc thr s.2)).length →
      (samplingSelect tc thr totalCFs samples idxs).validCfsFound = true ∧
      (samplingSelect tc thr totalCFs samples idxs).finalCfs.length =
        totalCFs ∧
      ∀ s ∈ (samplingSelect tc thr totalCFs samples idxs).finalCfs,
        validCF tc thr s.2 = true) ∧
    ((samples.filter (fun s => validCF tc thr s.2)).length < totalCFs →
      (samplingSelect tc thr totalCFs samples idxs).validCfsFound = false ∧
      (samplingSelect tc thr totalCFs samples idxs).finalCfs =
        samples.filter (fun s => validCF tc thr s.2) ∧
      (samplingSelect tc thr totalCFs samples idxs).finalCfs.length <
        totalCFs) := by
  simp only [samplingSelect]
  split
  case isTrue hle =>
    refine ⟨rfl, fun _ => ⟨rfl, ?_, ?_⟩, fun hlt => absurd hle (by omega)⟩
    · rw [pandasSample_length]
      omega
    · intro s hs
      exact (List.mem_filter.1 (pandasSample_subset _ _ _ s hs)).2
  case isFalse hle =>
    exact ⟨rfl, fun hge => absurd hge hle, fun hlt => ⟨rfl, rfl, hlt⟩⟩

/-- Witness for `sampling_shortfall_handling`: one sample with prediction 1,
target class 1, threshold 1/2, one counterfactual requested: the flag is
set and exactly one row returned. -/
theorem sampling_shortfall_handling_witness :
    (samplingSelect 1 (1/2) 1 [([5], 1)] [0]).validCfsFound = true ∧
    (samplingSelect 1 (1/2) 1 [([5], 1)] [0]).finalCfs.length = 1 :=
  ⟨((sampling_shortfall_handling 1 (1/2) 1 [([5], 1)] [0]).2.1
      (by norm_num [validCF, List.filter])).1,
   ((sampling_shortfall_handling 1 (1/2) 1 [([5], 1)] [0]).2.1
      (by norm_num [validCF, List.filter])).2.1⟩

/-- `argminFirst`'s fold, started from `some a`, yields `a` or a list
element. -/
theorem argminStep_foldl_mem :
    ∀ (l : List (ℕ × ℚ)) (a x : ℕ × ℚ),
      l.foldl argminStep (some a) = some x → x = a ∨ x ∈ l
  | [], a, x, h => by
    simp only [List.foldl_nil, Option.some.injEq] at h
    exact Or.inl h.symm
  | y :: ys, a, x, h => by
    simp only [List.foldl_cons, argminStep] at h
    split at h
    case isTrue =>
      rcases argminStep_foldl_mem ys y x h with h1 | h2
      · exact Or.inr (h1 ▸ List.mem_cons_self y ys)
      · exact Or.inr (List.mem_cons_of_mem _ h2)
    case isFalse =>
      rcases argminStep_foldl_mem ys a x h with h1 | h2
      · exact Or.inl h1
      · exact Or.inr (List.mem_cons_of_mem _ h2)

/-- `argminFirst` returns an element of the list. -/
theorem argminFirst_mem {l : List (ℕ × ℚ)} {x : ℕ × ℚ}
    (h : argminFirst l = some x) : x ∈ l := by
  cases l with
  | nil => simp [argminFirst] at h
  | cons y ys =>
    rw [argminFirst, List.foldl_cons] at h
    rw [show argminStep none y = some y from rfl] at h
    rcases argminStep_foldl_mem ys y x h with h1 | h2
    · exact h1 ▸ List.mem_cons_self y ys
    · exact List.mem_cons_of_mem _ h2

/-- Every fitness entry's index is below the population size. -/
theorem computeFitness_index_lt {lossFn : List (List ℚ) → ℚ}
    {popSize : ℕ} {population : List (List (List ℚ))} {x : ℕ × ℚ}
    (h : x ∈ computeFitness lossFn popSize population) : x.1 < popSize := by
  rw [computeFitness, List.mem_map] at h
  obtain ⟨k, hk, rfl⟩ := h
  simpa using List.mem_range.1 hk

/-- Membership in an insertion step. -/
theorem mem_insertFitness (x a : ℕ × ℚ) :
    ∀ (l : List (ℕ × ℚ)), x ∈ insertFitness a l → x = a ∨ x ∈ l
  | [] => by
    intro h
    rw [insertFitness] at h
    exact Or.inl (List.mem_singleton.1 h)
  | y :: ys => by
    intro h
    rw [insertFitness] at h
    split at h
    case isTrue =>
      rcases List.mem_cons.1 h with h1 | h2
      · exact Or.inr (h1 ▸ List.mem_cons_self y ys)
      · rcases mem_insertFitness x a ys h2 with h3 | h4
        · exact Or.inl h3
        · exact Or.inr (List.mem_cons_of_mem _ h4)
    case isFalse =>
      rcases List.mem_cons.1 h with h1 | h2
      · exact Or.inl h1
      · exact Or.inr h2

/-- Insertion grows the length by one. -/
theorem length_insertFitness (a : ℕ × ℚ) :
    ∀ (l : List (ℕ × ℚ)), (insertFitness a l).length = l.length + 1
  | [] => rfl
  | y :: ys => by
    rw [insertFitness]
    split
    · simp only [List.length_cons, length_insertFitness a ys]
    · simp only [List.length_cons]

/-- The stable sort permutes: every sorted entry is an original entry. -/
theorem sortFitness_subset (x : ℕ × ℚ) :
    ∀ (l : List (ℕ × ℚ)), x ∈ sortFitness l → x ∈ l
  | [] => by
    intro h
    simp [sortFitness] at h
  | y :: ys => by
    intro h
    rw [sortFitness, List.foldr_cons] at h
    rcases mem_insertFitness x y _ h with h1 | h2
    · exact h1 ▸ List.mem_cons_self y ys
    · exact List.mem_cons_of_mem _ (sortFitness_subset x ys h2)

/-- The stable sort preserves length. -/
theorem sortFitness_length :
    ∀ (l : List (ℕ × ℚ)), (sortFitness l).length = l.length
  | [] => rfl
  | y :: ys => by
    rw [sortFitness, List.foldr_cons, length_insertFitness,
      show List.foldr insertFitness [] ys = sortFitness ys from rfl,
      sortFitness_length ys, List.length_cons]

/-- `mate` always produces exactly `total_CFs` members (`for i in
range(self.total_CFs)`), regardless of the parents. -/
theorem mate_length (minx maxx : List ℚ) (nFeat totalCFs : ℕ)
    (k1 k2 : List (List ℚ)) (probs us : List ℚ) :
    (mate minx maxx nFeat totalCFs k1 k2 probs us).length = totalCFs := by
  simp [mate]

/-- Every member of the next generation — elite or child — has `total_CFs`
members, provided the current population's members do. -/
theorem nextGeneration_mem (lossFn : List (List ℚ) → ℚ)
    (minx maxx : List ℚ) (nFeat popSize totalCFs : ℕ)
    (population : List (List (List ℚ))) (rng : GenRng)
    (hlen : population.length = popSize)
    (hmem : ∀ s ∈ population, s.length = totalCFs) :
    ∀ s ∈ nextGeneration lossFn minx maxx nFeat popSize totalCFs
      population rng, s.length = totalCFs := by
  intro s hs
  rw [nextGeneration] at hs
  rcases List.mem_append.1 hs with h | h
  · rw [eliteSelection, List.mem_map] at h
    obtain ⟨tup, htup, rfl⟩ := h
    have h1 : tup ∈ sortFitness (computeFitness lossFn popSize population) :=
      List.mem_of_mem_take htup
    have h2 : tup.1 < popSize :=
      computeFitness_index_lt (sortFitness_subset tup _ h1)
    exact hmem _ (getD_mem_of_lt (hlen ▸ h2) _)
  · rw [reproduction, List.mem_map] at h
    obtain ⟨t, ht, rfl⟩ := h
    exact mate_length minx maxx nFeat totalCFs _ _ _ _

/-- The next generation's size is the 10% elite plus the 90% children. -/
theorem nextGeneration_length (lossFn : List (List ℚ) → ℚ)
    (minx maxx : List ℚ) (nFeat popSize totalCFs : ℕ)
    (population : List (List (List ℚ))) (rng : GenRng) :
    (nextGeneration lossFn minx maxx nFeat popSize totalCFs population
      rng).length = 10 * popSize / 100 + 90 * popSize / 100 := by
  rw [nextGeneration, List.length_append]
  congr 1
  · rw [eliteSelection, List.length_map, List.length_take,
      sortFitness_length, computeFitness, List.length_map,
      List.length_range]
    exact min_eq_left (by omega)
  · rw [reproduction, List.length_map, List.length_range]

/-- Whenever the genetic loop terminates, it returns a set with exactly
`self.total_CFs` members, all of whose predictions are valid for the
resolved target.  The split hypothesis `10% + 90% = popSize` holds for the
source's fixed `population_size = 100`. -/
theorem genetic_loop_returns_valid (lossFn : List (List ℚ) → ℚ)
    (pred : List ℚ → ℚ) (tc thr : ℚ) (minx maxx : List ℚ)
    (nFeat popSize totalCFs : ℕ) :
    ∀ (fuel : ℕ) (population : List (List (List ℚ)))
      (rngs : List GenRng) (cfs : List (List ℚ)),
      population.length = popSize →
      (∀ s ∈ population, s.length = totalCFs) →
      10 * popSize / 100 + 90 * popSize / 100 = popSize →
      geneticLoop lossFn pred tc thr minx maxx nFeat popSize totalCFs fuel
        population rngs = some cfs →
      cfs.length = totalCFs ∧ ∀ c ∈ cfs, validCF tc thr (pred c) = true
  | 0, population, rngs, cfs, _, _, _, heq => by
    simp [geneticLoop] at heq
  | fuel + 1, population, rngs, cfs, hlen, hmem, hsplit, heq => by
    rw [geneticLoop] at heq
    split at heq
    · exact absurd heq (by simp)
    · rename_i best hb
      split at heq
      · rename_i hvalid
        have hcfs : population.getD best.1 [] = cfs := by
          simpa using heq
        have hbl : best.1 < popSize :=
          computeFitness_index_lt (argminFirst_mem hb)
        have hmemb : population.getD best.1 [] ∈ population :=
          getD_mem_of_lt (hlen ▸ hbl) _
        constructor
        · rw [← hcfs]
          exact hmem _ hmemb
        · intro c hc
          rw [← hcfs] at hc
          rw [validCF_iff]
          rcases hvalid with ⟨h0, hall⟩ | ⟨h1, hall⟩
          · exact Or.inl ⟨h0, hall c hc⟩
          · exact Or.inr ⟨h1, hall c hc⟩
      · exact genetic_loop_returns_valid lossFn pred tc thr minx maxx nFeat
          popSize totalCFs fuel _ _ cfs
          ((nextGeneration_length lossFn minx maxx nFeat popSize totalCFs
            population _).trans hsplit)
          (nextGeneration_mem lossFn minx maxx nFeat popSize totalCFs
            population _ hlen hmem)
          hsplit heq

/-- The initialized population has `population_size` sets. -/
theorem initPopulation_length (minx maxx : List ℚ)
    (nFeat totalCFs popSize : ℕ) (us : List ℚ) :
    (initPopulation minx maxx nFeat totalCFs popSize us).length = popSize := by
  simp [initPopulation]

/-- Every initialized set has `total_CFs` members. -/
theorem initPopulation_mem (minx maxx : List ℚ)
    (nFeat totalCFs popSize : ℕ) (us : List ℚ) :
    ∀ s ∈ initPopulation minx maxx nFeat totalCFs popSize us,
      s.length = totalCFs := by
  intro s hs
  rw [initPopulation, List.mem_map] at hs
  obtain ⟨kx, _, rfl⟩ := hs
  simp [initCfSet]

/-- C2, amended: under the `DiverseCF` algorithm (at least one
counterfactual requested), whenever the genetic search terminates it
returns exactly the requested `total_CFs` counterfactuals, each satisfying
the validity predicate for the resolved target class and stopping
threshold.  (Under `RandomInitCF` the internal set size is forced to 1, so
the returned set has 1 member, not the requested `total_CFs` — see the
counterexample.)  The split hypothesis holds for the source's fixed
`population_size = 100`. -/
theorem find_counterfactuals_diversecf_valid (popSize nFeat : ℕ)
    (minx maxx : List ℚ) (lossFn : List (List ℚ) → ℚ)
    (pred : List ℚ → ℚ) (totalCFs : ℕ) (query : List ℚ)
    (desiredClass : Option ℚ) (stoppingThreshold : ℚ) (initUs : List ℚ)
    (rngs : List GenRng) (fuel : ℕ) (cfs : List (List ℚ))
    (hcfs : 1 ≤ totalCFs)
    (hsplit : 10 * popSize / 100 + 90 * popSize / 100 = popSize)
    (heq : find_counterfactuals popSize nFeat minx maxx lossFn pred
      totalCFs Algorithm.DiverseCF query desiredClass stoppingThreshold
      initUs rngs fuel = some cfs) :
    cfs.length = totalCFs ∧
    ∀ c ∈ cfs,
      validCF (resolveDesiredClass desiredClass (pred query))
        (resolveStoppingThreshold
          (resolveDesiredClass desiredClass (pred query))
          stoppingThreshold)
        (pred c) = true := by
  rw [find_counterfactuals] at heq
  have hinit : do_cf_initializations popSize minx maxx nFeat totalCFs
      Algorithm.DiverseCF [] initUs =
      ⟨0, totalCFs, initPopulation minx maxx nFeat totalCFs popSize
        initUs⟩ := by
    rw [do_cf_initializations]
    simp only [reduceCtorEq, if_false]
    rw [if_pos (by simpa using by omega)]
  rw [hinit] at heq
  exact genetic_loop_returns_valid lossFn pred _ _ minx maxx nFeat popSize
    totalCFs fuel _ rngs cfs
    (initPopulation_length minx maxx nFeat totalCFs popSize initUs)
    (initPopulation_mem minx maxx nFeat totalCFs popSize initUs)
    hsplit heq

/-- Witness for `find_counterfactuals_diversecf_valid`: population size 10
(so the 10%/90% split is exact), one feature with domain `[0,1]`, constant
oracle 0, desired class 0, threshold 1/2, one requested counterfactual:
the search terminates in the first generation with one valid member. -/
theorem find_counterfactuals_diversecf_valid_witness :
    ([[(0:ℚ)]] : List (List ℚ)).length = 1 ∧
    validCF (resolveDesiredClass (some 0) ((fun _ : List ℚ => (0:ℚ)) [0]))
      (resolveStoppingThreshold
        (resolveDesiredClass (some 0) ((fun _ : List ℚ => (0:ℚ)) [0]))
        (1/2))
      ((fun _ : List ℚ => (0:ℚ)) [(0:ℚ)]) = true := by
  have h := find_counterfactuals_diversecf_valid 10 1 [0] [1]
    (fun _ => 0) (fun _ : List ℚ => (0:ℚ)) 1 [0] (some 0) (1/2) [] [] 1
    [[(0:ℚ)]] (by norm_num) (by norm_num)
    (by
      norm_num [find_counterfactuals, do_cf_initializations,
        initPopulation, initCfSet, initOneVector, uniformDraw, geneticLoop,
        computeFitness, argminFirst, argminStep, resolveDesiredClass,
        resolveStoppingThreshold, rhe, List.range_succ, List.getD])
  exact ⟨h.1, h.2 [(0:ℚ)] (by simp)⟩

/-- C2 counterexample: under the accepted configuration
`algorithm = "RandomInitCF"` with requested `total_CFs = 2`,
`do_cf_initializations` forces the internal set size `self.total_CFs` to 1,
so the terminating genetic search returns a set of 1 counterfactual, not
the requested 2 (concretely: population size 1, domain `[0,1]`, constant
oracle 0, desired class 0, threshold 1/2, initialization draw 1/2). -/
theorem genetic_random_init_total_cfs_counterexample :
    find_counterfactuals 1 1 [0] [1] (fun _ => 0) (fun _ => 0) 2
      Algorithm.RandomInitCF [0] (some 0) (1/2) [1/2] [] 1 =
      some [[(1:ℚ)/2]] ∧
    ([[(1:ℚ)/2]] : List (List ℚ)).length ≠ 2 := by
  constructor
  · norm_num [find_counterfactuals, do_cf_initializations, initPopulation,
      initCfSet, initOneVector, uniformDraw, geneticLoop, computeFitness,
      argminFirst, argminStep, resolveDesiredClass,
      resolveStoppingThreshold, List.range_succ, List.getD]
  · simp

/-- C3 (code bug): reproduction's parents are drawn from
`population[:int(50 * population_size / 100)]` — the first half of the
population in its current order — not from the best 50% by loss, although
the code's own comment at `dice_genetic.py` line 251 ("90% of the next
generation obtained from top 50% of fittest members of current
generation") and the spec say the latter.  Concretely, with population
`[A, B]` where `loss A = 1 > 0 = loss B`, the code's mating pool is `[A]`
(the single worst set) while the best half by loss is `[B]`. -/
theorem mating_pool_not_best_half :
    matingPool 2 [[[(1:ℚ)]], [[(0:ℚ)]]] = [[[(1:ℚ)]]] ∧
    bestHalfByLoss (fun s => (s.getD 0 []).getD 0 0) 2
      [[[(1:ℚ)]], [[(0:ℚ)]]] = [[[(0:ℚ)]]] ∧
    ([[[(1:ℚ)]]] : List (List (List ℚ))) ≠ [[[(0:ℚ)]]] := by
  refine ⟨?_, ?_, by simp⟩
  · norm_num [matingPool]
  · norm_num [bestHalfByLoss, sortFitness, insertFitness, computeFitness,
      List.range_succ, List.getD]

/-- C4 (code bug): the genetic search never pins fixed features to the
query value.  `do_cf_initializations` draws
`np.random.uniform(minx, maxx)` for every feature index — neither
`features_to_vary` nor the computed-but-unused `freezer` mask enters the
draw — and `mate`'s mutation branch likewise redraws any feature.
Concretely, with query `[5]`, feature 0 excluded from `features_to_vary`
and domain `[0,1]`: initialization (draw 1/2) produces `[[1/2]]`, and
mating two parents both carrying the query value 5 (mutation draw at
probability 0.95) produces `[1/2]` — the "fixed" field does not equal the
query's value 5. -/
theorem fixed_features_not_pinned :
    (do_cf_initializations 1 [0] [1] 1 1 Algorithm.DiverseCF []
      [1/2]).cfs = [[[(1:ℚ)/2]]] ∧
    mateVector [0] [1] [5] [5] [95/100] [1/2] = [(1:ℚ)/2] ∧
    (1:ℚ)/2 ≠ 5 := by
  refine ⟨?_, ?_, by norm_num⟩
  · norm_num [do_cf_initializations, initPopulation, initCfSet,
      initOneVector, uniformDraw, List.range_succ, List.getD]
  · norm_num [mateVector, uniformDraw, List.range_succ, List.getD]

/-- Deep copy leaves every address below the allocation pointer intact. -/
theorem deepcopyList_preserves :
    ∀ (addrs : List ℕ) (h : Heap) (next a : ℕ), a < next →
      (deepcopyList h next addrs).1 a = h a
  | [], h, next, a, _ => rfl
  | b :: rest, h, next, a, ha => by
    simp only [deepcopyList]
    rw [deepcopyList_preserves rest _ (next + 1) a (by omega)]
    simp only [hupd]
    rw [if_neg (by omega)]

/-- Deep copy advances the allocation pointer by the number of arrays. -/
theorem deepcopyList_next :
    ∀ (addrs : List ℕ) (h : Heap) (next : ℕ),
      (deepcopyList h next addrs).2.1 = next + addrs.length
  | [], h, next => by simp [deepcopyList]
  | b :: rest, h, next => by
    simp only [deepcopyList, List.length_cons]
    rw [deepcopyList_next rest _ (next + 1)]
    omega

/-- Deep copy returns as many fresh addresses as arrays copied. -/
theorem deepcopyList_addrs_length :
    ∀ (addrs : List ℕ) (h : Heap) (next : ℕ),
      (deepcopyList h next addrs).2.2.length = addrs.length
  | [], h, next => rfl
  | b :: rest, h, next => by
    simp only [deepcopyList, List.length_cons]
    rw [deepcopyList_addrs_length rest _ (next + 1)]

/-- Every fresh address sits at or above the allocation pointer. -/
theorem deepcopyList_addrs_ge :
    ∀ (addrs : List ℕ) (h : Heap) (next : ℕ),
      ∀ b ∈ (deepcopyList h next addrs).2.2, next ≤ b
  | [], h, next => by simp [deepcopyList]
  | c :: rest, h, next => by
    intro b hb
    simp only [deepcopyList] at hb
    rcases List.mem_cons.1 hb with h1 | h2
    · omega
    · have := deepcopyList_addrs_ge rest _ (next + 1) b h2
      omega

/-- The member loop writes only to `final_cfs_sparse` /
`cfs_preds_sparse` addresses: any other address reads unchanged. -/
theorem posthoc_fold_frame (pred : List ℚ → ℚ) (tc thr : ℚ)
    (refine : List ℚ → List ℚ) (sparseAddrs predAddrs : List ℕ) (a : ℕ)
    (ha1 : a ∉ sparseAddrs) (ha2 : a ∉ predAddrs) :
    ∀ (l : List ℕ) (h : Heap),
      (∀ i ∈ l, i < sparseAddrs.length ∧ i < predAddrs.length) →
      (l.foldl (posthocStep pred tc thr refine sparseAddrs predAddrs) h) a
        = h a
  | [], h, _ => rfl
  | i :: rest, h, hm => by
    rw [List.foldl_cons]
    rw [posthoc_fold_frame pred tc thr refine sparseAddrs predAddrs a ha1
      ha2 rest _ (fun j hj => hm j (List.mem_cons_of_mem _ hj))]
    obtain ⟨hi1, hi2⟩ := hm i (List.mem_cons_self i rest)
    rw [posthocStep]
    split
    · rfl
    · have hpa : ¬ (a = predAddrs.getD i 0) := by
        intro hceq
        exact ha2 (by rw [hceq]; exact getD_mem_of_lt hi2 0)
      have hsa : ¬ (a = sparseAddrs.getD i 0) := by
        intro hceq
        exact ha1 (by rw [hceq]; exact getD_mem_of_lt hi1 0)
      simp only [hupd]
      rw [if_neg hpa, if_neg hsa]

/-- C9: the Sparsity Refiner operates only on a deep copy of the final
counterfactual set.  For any oracle, any per-member refinement function,
and any heap whose live addresses all sit below the allocation pointer
(with `final_cfs` and `cfs_preds` the usual parallel lists): after the
deep-copy-plus-refinement stage, every array of the raw final set and of
its raw predictions reads element-for-element as before, and no address of
the refined copy (vectors or predictions) aliases an address of the raw
lists. -/
theorem sparsity_deepcopy_frame (pred : List ℚ → ℚ) (tc thr : ℚ)
    (refine : List ℚ → List ℚ) (totalRandomInits totalCFs : ℕ)
    (h : Heap) (next : ℕ) (finalCfs cfsPreds : List ℕ)
    (hf : ∀ a ∈ finalCfs, a < next) (hp : ∀ a ∈ cfsPreds, a < next)
    (hpar : cfsPreds.length = finalCfs.length) :
    (∀ a ∈ finalCfs,
      (sparsity_stage pred tc thr refine totalRandomInits totalCFs h next
        finalCfs cfsPreds).heap a = h a) ∧
    (∀ a ∈ cfsPreds,
      (sparsity_stage pred tc thr refine totalRandomInits totalCFs h next
        finalCfs cfsPreds).heap a = h a) ∧
    (∀ b ∈ (sparsity_stage pred tc thr refine totalRandomInits totalCFs h
        next finalCfs cfsPreds).sparseAddrs,
      b ∉ finalCfs ∧ b ∉ cfsPreds) ∧
    (∀ b ∈ (sparsity_stage pred tc thr refine totalRandomInits totalCFs h
        next finalCfs cfsPreds).predAddrs,
      b ∉ finalCfs ∧ b ∉ cfsPreds) := by
  have hn1 : (deepcopyList h next finalCfs).2.1 = next + finalCfs.length :=
    deepcopyList_next finalCfs h next
  have hs_ge : ∀ b ∈ (deepcopyList h next finalCfs).2.2, next ≤ b :=
    deepcopyList_addrs_ge finalCfs h next
  have hslen : (deepcopyList h next finalCfs).2.2.length =
      finalCfs.length := deepcopyList_addrs_length finalCfs h next
  have hp_ge : ∀ b ∈ (deepcopyList (deepcopyList h next finalCfs).1
      (deepcopyList h next finalCfs).2.1 cfsPreds).2.2, next ≤ b := by
    intro b hb
    have := deepcopyList_addrs_ge cfsPreds (deepcopyList h next finalCfs).1
      (deepcopyList h next finalCfs).2.1 b hb
    omega
  have hplen : (deepcopyList (deepcopyList h next finalCfs).1
      (deepcopyList h next finalCfs).2.1 cfsPreds).2.2.length =
      cfsPreds.length :=
    deepcopyList_addrs_length cfsPreds _ _
  have hnotf : ∀ b : ℕ, next ≤ b → b ∉ finalCfs ∧ b ∉ cfsPreds := by
    intro b hb
    constructor
    · intro hmem
      exact absurd (hf b hmem) (by omega)
    · intro hmem
      exact absurd (hp b hmem) (by omega)
  have hkey : ∀ a : ℕ, a < next →
      (sparsity_stage pred tc thr refine totalRandomInits totalCFs h next
        finalCfs cfsPreds).heap a = h a := by
    intro a ha
    simp only [sparsity_stage]
    rw [do_posthoc_heap]
    rw [posthoc_fold_frame pred tc thr refine _ _ a
      (fun hmem => absurd (hs_ge a hmem) (by omega))
      (fun hmem => absurd (hp_ge a hmem) (by omega))
      _ _
      (by
        intro i hi
        rw [List.mem_range] at hi
        have hble : posthoc_loop_bound totalRandomInits totalCFs
            (deepcopyList h next finalCfs).2.2.length ≤
            (deepcopyList h next finalCfs).2.2.length := by
          rw [posthoc_loop_bound]
          exact min_le_right _ _
        constructor
        · omega
        · omega)]
    rw [deepcopyList_preserves cfsPreds _ _ a (by omega)]
    exact deepcopyList_preserves finalCfs h next a ha
  refine ⟨fun a ha => hkey a (hf a ha), fun a ha => hkey a (hp a ha),
    ?_, ?_⟩
  · intro b hb
    simp only [sparsity_stage] at hb
    exact hnotf b (hs_ge b hb)
  · intro b hb
    simp only [sparsity_stage] at hb
    exact hnotf b (hp_ge b hb)

/-- Witness for `sparsity_deepcopy_frame`: heap with the final
counterfactual `[1]` at address 0 and its prediction row `[0]` at address
1, allocation pointer 2, constant oracle, identity refinement: the raw
array at address 0 reads unchanged after the stage, and the single copy
address (2) does not alias the raw list `[0]`. -/
theorem sparsity_deepcopy_frame_witness :
    (sparsity_stage (fun _ => 0) 0 (1/2) id 0 1 heapCEx 2 [0] [1]).heap 0 =
      heapCEx 0 ∧
    (2:ℕ) ∉ ([0] : List ℕ) := by
  have h := sparsity_deepcopy_frame (fun _ => 0) 0 (1/2) id 0 1 heapCEx 2
    [0] [1] (by intro a ha; simp at ha; omega)
    (by intro a ha; simp at ha; omega) (by simp)
  refine ⟨h.1 0 (by simp), ?_⟩
  exact (h.2.2.1 2 (by simp [sparsity_stage, deepcopyList])).1

end DiCE
